import Mathlib

/- Verification development for the diff_splitter program (src/main.rs).

The program reads a unified-diff stream line by line, groups the lines into
per-file records with a five-state classifier, resolves a strip level for
each record's path, strips the path, optionally masks the line numbers in
hunk headers, and writes each record to its own file; "Binary files" marker
lines are collected into one aggregate artifact.

The embedding below models lines and paths as lists of characters (the Rust
code reads byte lines and converts them to `String` via lossy UTF-8; we model
the resulting character sequences).  Every definition is translated from
src/main.rs; comments note the corresponding Rust construct.  -/

set_option maxHeartbeats 4000000

abbrev L := List Char

/-- Character list of a string literal, used for concrete lines and paths. -/
def lit (s : String) : L := s.toList

/-- Whitespace test used by Rust's `trim_end`/`trim` on the characters that
occur in diff streams (space, tab, CR, LF).  Rust's `char::is_whitespace`
also accepts some further Unicode code points, none of which appear in the
lines or claims considered here. -/
def isWS (c : Char) : Bool := c == ' ' || c == '\t' || c == '\n' || c == '\r'

/-- Model of Rust `str::trim_end`. -/
def trimEndL (l : L) : L := (l.reverse.dropWhile isWS).reverse

/-- Model of Rust `str::trim_start`. -/
def trimStartL (l : L) : L := l.dropWhile isWS

/-- Model of Rust `str::trim`. -/
def trimL (l : L) : L := trimEndL (trimStartL l)

/-- First occurrence of `sep` in a list (leftmost): returns the part before
the separator and the part after it, or `none` when `sep` does not occur.
This is the primitive used to model Rust's `str::splitn`. -/
def findSplit (sep : L) : L → Option (L × L)
  | [] => if sep = [] then some ([], []) else none
  | c :: rest =>
    if sep.isPrefixOf (c :: rest) then some ([], (c :: rest).drop sep.length)
    else
      match findSplit sep rest with
      | some (x, y) => some (c :: x, y)
      | none => none

/-- Model of Rust `str::splitn(3, sep)`: split at the first two leftmost
non-overlapping occurrences of `sep`, keeping the remainder intact. -/
def splitn3 (sep l : L) : List L :=
  match findSplit sep l with
  | none => [l]
  | some (a, r1) =>
    match findSplit sep r1 with
    | none => [a, r1]
    | some (b, r2) => [a, b, r2]

/-- Longest run of ASCII digits at the head of a list, with the rest.
Models the greedy `[0-9]+` in the hunk-header regexes. -/
def spanDigits (l : L) : L × L := (l.takeWhile Char.isDigit, l.dropWhile Char.isDigit)

/-- Optional `,<count>` field of a hunk header: consumed only when a comma
followed by at least one digit is present, as in the `(,[0-9]+)?` group. -/
def optCount (l : L) : L × L :=
  match l with
  | c0 :: c1 :: rest =>
    if c0 = ',' ∧ c1.isDigit = true then
      (',' :: (spanDigits (c1 :: rest)).1, (spanDigits (c1 :: rest)).2)
    else ([], c0 :: c1 :: rest)
  | _ => ([], l)

/-- Digit masking: `re_digit.replace_all(g, "X")` on an all-digit group. -/
def maskDigits (l : L) : L := l.map (fun _ => 'X')

/- The two regexes of main.rs are applied, via `replace_all`, to the string
`line_to_process = "@@" ++ p1 ++ "@@"` (resp. `"@@@" ++ p1 ++ "@@@"`), where
`p1` lies between the first two occurrences of the delimiter and therefore
contains no delimiter.  Because each pattern both starts and ends with the
delimiter, a match inside `line_to_process` can only start at position 0 and
can only end at the final delimiter, so `replace_all` either matches the
whole string or leaves it unchanged.  `parseCore2`/`parseCore3` decide that
full match and produce the regex's replacement for the capture groups. -/

/-- Full match of `line_to_process` against the two-file hunk regex
`(@@ -[0-9]+)(,[0-9]+)?( \+[0-9]+)(,[0-9]+)?( @@)` together with the masked
replacement `g1_x ++ g2 ++ g3_x ++ g4 ++ g5` (digits of the two start fields
replaced by `X`). -/
def parseCore2 (l : L) : Option L :=
  match l with
  | '@' :: '@' :: ' ' :: '-' :: r0 =>
    if (spanDigits r0).1 = [] then none
    else
      match (optCount (spanDigits r0).2).2 with
      | ' ' :: '+' :: r3 =>
        if (spanDigits r3).1 = [] then none
        else
          match (optCount (spanDigits r3).2).2 with
          | [' ', '@', '@'] =>
            some (lit "@@ -" ++ maskDigits (spanDigits r0).1 ++ (optCount (spanDigits r0).2).1 ++
              lit " +" ++ maskDigits (spanDigits r3).1 ++ (optCount (spanDigits r3).2).1 ++
              lit " @@")
          | _ => none
      | _ => none
  | _ => none

/-- Full match of `line_to_process` against the combined-diff regex
`(@@@ -[0-9]+)(,[0-9]+)?( \-[0-9]+)(,[0-9]+)?( \+[0-9]+)(,[0-9]+)?( @@@)`
with the masked replacement (digits of the three start fields replaced). -/
def parseCore3 (l : L) : Option L :=
  match l with
  | '@' :: '@' :: '@' :: ' ' :: '-' :: r0 =>
    if (spanDigits r0).1 = [] then none
    else
      match (optCount (spanDigits r0).2).2 with
      | ' ' :: '-' :: r3 =>
        if (spanDigits r3).1 = [] then none
        else
          match (optCount (spanDigits r3).2).2 with
          | ' ' :: '+' :: r6 =>
            if (spanDigits r6).1 = [] then none
            else
              match (optCount (spanDigits r6).2).2 with
              | [' ', '@', '@', '@'] =>
                some (lit "@@@ -" ++ maskDigits (spanDigits r0).1 ++
                  (optCount (spanDigits r0).2).1 ++ lit " -" ++
                  maskDigits (spanDigits r3).1 ++ (optCount (spanDigits r3).2).1 ++
                  lit " +" ++ maskDigits (spanDigits r6).1 ++
                  (optCount (spanDigits r6).2).1 ++ lit " @@@")
              | _ => none
          | _ => none
      | _ => none
  | _ => none

/-- `line_to_process` and `line_remain` for a trimmed line starting `"@@ "`:
`splitn(3, "@@")`; with three parts the line is re-assembled around the first
two delimiters and the remainder kept aside, otherwise the whole trimmed
line is processed and the remainder is empty. -/
def lineToProcess2 (t : L) : L × L :=
  match splitn3 (lit "@@") t with
  | [_, p1, p2] => (lit "@@" ++ p1 ++ lit "@@", p2)
  | _ => (t, [])

/-- `line_to_process` and `line_remain` for a trimmed line starting `"@@@ "`. -/
def lineToProcess3 (t : L) : L × L :=
  match splitn3 (lit "@@@") t with
  | [_, p1, p2] => (lit "@@@" ++ p1 ++ lit "@@@", p2)
  | _ => (t, [])

/-- Bytes written for a trimmed `"@@ "` line under masking: on a regex match
the replacement appends `line_remain` and a newline; otherwise `replace_all`
returns `line_to_process` unchanged and exactly that is written. -/
def mask2Emit (t : L) : L :=
  let pr := lineToProcess2 t
  match parseCore2 pr.1 with
  | some m => m ++ pr.2 ++ ['\n']
  | none => pr.1

/-- Bytes written for a trimmed `"@@@ "` line under masking. -/
def mask3Emit (t : L) : L :=
  let pr := lineToProcess3 t
  match parseCore3 pr.1 with
  | some m => m ++ pr.2 ++ ['\n']
  | none => pr.1

/-- Bytes written for one body/header line by the output loop of
`process_file_diff`, after the header-skipping check: with masking enabled a
line whose trimmed form starts `"@@ "` or `"@@@ "` goes through the masker,
every other line is written verbatim. -/
def emitLine (mask : Bool) (l : L) : L :=
  if mask then
    let t := trimEndL l
    if (lit "@@ ").isPrefixOf t then mask2Emit t
    else if (lit "@@@ ").isPrefixOf t then mask3Emit t
    else l
  else l

/-- Split a character list at every occurrence of a character (all parts,
empty parts included), as the basis for path components. -/
def splitOnChar (sep : Char) : L → List L
  | [] => [[]]
  | c :: rest =>
    if c = sep then [] :: splitOnChar sep rest
    else
      match splitOnChar sep rest with
      | h :: t => (c :: h) :: t
      | [] => [[c]]

/-- Keep a path segment: Rust's `Path::components` drops empty segments and
interior `"."` segments. -/
def keepSeg (s : L) : Bool := !(s.isEmpty || s == lit ".")

/-- Model of Rust `Path::components` on Unix paths (the program runs on the
byte strings found in the diff).  A root directory is represented as `"/"`,
a leading current-directory segment as `"."`, a parent segment as `".."`;
normal components are their own text.  These representations never collide
with a normal component (a normal component is non-empty, contains no `/`,
and is never `"."` or `".."`), so list equality of representations agrees
with Rust `Component` equality. -/
def components (p : L) : List L :=
  match splitOnChar '/' p with
  | [] => []
  | s0 :: rest =>
    if p.head? = some '/' then lit "/" :: (s0 :: rest).filter keepSeg
    else if s0 = lit "." then lit "." :: rest.filter keepSeg
    else (s0 :: rest).filter keepSeg

/-- Model of `calculate_strip_value` (src/main.rs:287-296): the number of
matching trailing components of the two paths is computed by zipping the
reversed component lists, and the result is the length of the *from* path's
component list minus that count. -/
def calculate_strip_value (fromPath toPath : L) : Nat :=
  let fromComponents := components fromPath
  let toComponents := components toPath
  let commonSuffix :=
    (((fromComponents.reverse).zip (toComponents.reverse)).takeWhile
      (fun p => p.1 == p.2)).length
  fromComponents.length - commonSuffix

/-- Rust `i32 as usize` on a 64-bit target: two's-complement reinterpretation
modulo 2^64 (relevant only for explicit `--strip` values other than -1). -/
def usizeOfI32 (x : Int) : Nat := (x.emod (2 ^ 64)).toNat

/-- Model of repeated prefix removal, Rust `str::trim_start_matches`.  A
fuel argument of `l.length` bounds the iteration; each successful strip of a
non-empty prefix shortens the list, so the fuel is never exhausted before
the loop's fixpoint. -/
def trimStartMatchesFuel (pfx : L) : Nat → L → L
  | 0, l => l
  | n + 1, l =>
    if pfx ≠ [] ∧ pfx.isPrefixOf l ∧ l ≠ [] then
      trimStartMatchesFuel pfx n (l.drop pfx.length)
    else l

/-- Rust `str::trim_start_matches pfx`. -/
def trimStartMatches (pfx l : L) : L := trimStartMatchesFuel pfx l.length l

/-- Model of `extract_path` (src/main.rs:152-155): strip the marker prefix
repeatedly, trim surrounding whitespace, and keep only the part before the
first tab (dropping timestamp metadata). -/
def extract_path (l pfx : L) : L :=
  let t := trimL (trimStartMatches pfx l)
  match splitOnChar '\t' t with
  | h :: _ => h
  | [] => t

/-- Rust `Path::file_name`: the last component when it is a normal one. -/
def fileNameOf (p : L) : Option L :=
  match (components p).getLast? with
  | some c => if c = lit "/" ∨ c = lit "." ∨ c = lit ".." then none else some c
  | none => none

/-- Rejoin path components with `/`, as collecting a component slice into a
`PathBuf` does (the dropped slice contains no root or current-dir
component, which only ever appear first). -/
def joinComps : List L → L
  | [] => []
  | [c] => c
  | c :: rest => c ++ '/' :: joinComps rest

/-- Path-stripping logic of `process_file_diff` (src/main.rs:184-196). -/
def stripPath (fullPath : L) (stripValue : Nat) : L :=
  if stripValue > 0 then
    let comps := components fullPath
    if comps.length > stripValue then joinComps (comps.drop stripValue)
    else
      match fileNameOf fullPath with
      | some f => f
      | none => []
  else fullPath

/-- The configuration values consumed from the CLI (src/main.rs:12-27):
`strip = -1` is the auto-detect sentinel. -/
structure Args where
  strip : Int
  mask_linenum : Bool
  skip_header : Bool
deriving DecidableEq, Repr

/-- A line is one of the four header-line shapes, tested on the trimmed
line by the skip-header branch of the output loop. -/
def isHeaderPrefix (t : L) : Bool :=
  (lit "diff --").isPrefixOf t || (lit "index ").isPrefixOf t ||
  (lit "--- ").isPrefixOf t || (lit "+++ ").isPrefixOf t

/-- The output loop of `process_file_diff` (src/main.rs:212-282): while the
header has not been processed, header-shaped lines are skipped when
`skip_header` is set; the first other line switches the flag, and every
line from there on is emitted (masked when enabled). -/
def recordOutputAux (mask skip : Bool) : Bool → List L → L
  | _, [] => []
  | hp, l :: ls =>
    if hp = false ∧ skip = true ∧ isHeaderPrefix (trimEndL l) = true then
      recordOutputAux mask skip hp ls
    else emitLine mask l ++ recordOutputAux mask skip true ls

/-- Bytes written for one record by `process_file_diff`'s line loop. -/
def recordOutput (mask skip : Bool) (lines : List L) : L :=
  recordOutputAux mask skip false lines

/-- `--- ` / `+++ ` path recovery inside `process_file_diff`
(src/main.rs:164-174): first line with the prefix, path extracted,
empty when absent. -/
def findPathLine (pfx : L) (lines : List L) : L :=
  match lines.find? (fun l => pfx.isPrefixOf l) with
  | some l => extract_path l pfx
  | none => []

/-- The strip value used by `process_file_diff` (src/main.rs:177-181). -/
def stripValueOf (args : Args) (lines : List L) : Nat :=
  if args.strip = -1 then
    calculate_strip_value (findPathLine (lit "--- ") lines) (findPathLine (lit "+++ ") lines)
  else usizeOfI32 args.strip

/-- Model of `process_file_diff` (src/main.rs:157-285): `none` when the
stripped path is empty (the record is skipped silently), otherwise the
relative output path together with the bytes written to it. -/
def process_file_diff (lines : List L) (full_path : L) (args : Args) : Option (L × L) :=
  let stripped := stripPath full_path (stripValueOf args lines)
  if stripped = [] then none
  else some (stripped, recordOutput args.mask_linenum args.skip_header lines)

/-- The classifier states of src/main.rs:144-150. -/
inductive HeaderState
  | Diff
  | FromOrIndex
  | From
  | To
  | Body
deriving DecidableEq, Repr

/-- The fatal format errors raised in states `FromOrIndex`, `From`, `To`
(src/main.rs:76-79, 85-88, 98-101); the Rust program prints a message and
exits with status 1. -/
inductive Fatal
  | expectedIndexOrFrom
  | expectedFrom
  | expectedTo
deriving DecidableEq, Repr

/-- A record handed to `process_file_diff`: its accumulated lines and the
resolved `full_path` (src/main.rs:60, 106, 128). -/
structure DiffRec where
  lines : List L
  full_path : L
deriving DecidableEq, Repr

/-- The mutable state of the main loop (src/main.rs:40-51): the open record's
lines, its path, its binary flag, the binary-marker aggregate, the current
classifier state, and — modelling the calls to `process_file_diff` — the
records emitted so far, in order. -/
structure St where
  header_state : HeaderState
  current_file_lines : List L
  full_path : Option L
  is_binary : Bool
  binary_file_lines : List L
  emitted : List DiffRec
deriving DecidableEq, Repr

/-- Initial loop state (src/main.rs:40-51). -/
def initSt : St :=
  { header_state := .Diff, current_file_lines := [], full_path := none,
    is_binary := false, binary_file_lines := [], emitted := [] }

/-- Line predicates of the classifier, all on the raw line. -/
def isDiffL (l : L) : Bool := (lit "diff --").isPrefixOf l

/-- `index ` header line test. -/
def isIndexL (l : L) : Bool := (lit "index ").isPrefixOf l

/-- `--- ` header line test. -/
def isFromL (l : L) : Bool := (lit "--- ").isPrefixOf l

/-- `+++ ` header line test. -/
def isToL (l : L) : Bool := (lit "+++ ").isPrefixOf l

/-- `Binary files ` marker line test. -/
def isMarkerL (l : L) : Bool := (lit "Binary files ").isPrefixOf l

/-- Closing a record (src/main.rs:59-61, 105-107, 127-129): it is handed to
`process_file_diff` only when it has lines, a resolved path, and is not
binary. -/
def flushRec (st : St) : List DiffRec :=
  match st.full_path with
  | some p =>
    if st.current_file_lines ≠ [] ∧ st.is_binary = false then
      st.emitted ++ [⟨st.current_file_lines, p⟩]
    else st.emitted
  | none => st.emitted

/-- Opening a new record on a `diff --` line (src/main.rs:59-66, 105-112):
flush the previous record, reset the accumulator and flags, store the line. -/
def openNew (st : St) (l : L) : St :=
  { header_state := .FromOrIndex, current_file_lines := [l], full_path := none,
    is_binary := false, binary_file_lines := st.binary_file_lines,
    emitted := flushRec st }

/-- One iteration of the read loop (src/main.rs:56-121), consuming one line. -/
def step (st : St) (l : L) : Except (Fatal × St) St :=
  match st.header_state with
  | .Diff =>
    if isDiffL l then .ok (openNew st l) else .ok st
  | .FromOrIndex =>
    if isIndexL l then
      .ok { st with current_file_lines := st.current_file_lines ++ [l],
                    header_state := .From }
    else if isFromL l then
      .ok { st with current_file_lines := st.current_file_lines ++ [l],
                    header_state := .To }
    else .error (.expectedIndexOrFrom, st)
  | .From =>
    if isFromL l then
      .ok { st with current_file_lines := st.current_file_lines ++ [l],
                    header_state := .To }
    else .error (.expectedFrom, st)
  | .To =>
    if isToL l then
      let p := extract_path l (lit "+++ ")
      .ok { st with full_path := if p = [] then st.full_path else some p,
                    current_file_lines := st.current_file_lines ++ [l],
                    header_state := .Body }
    else .error (.expectedTo, st)
  | .Body =>
    if isDiffL l then .ok (openNew st l)
    else if isMarkerL l then
      .ok { st with is_binary := true,
                    binary_file_lines := st.binary_file_lines ++ [trimEndL l],
                    current_file_lines := st.current_file_lines ++ [l] }
    else .ok { st with current_file_lines := st.current_file_lines ++ [l] }

/-- Run the loop over a list of input lines, stopping at the first fatal
error; the error value carries the state at the failure (nothing further is
emitted; what was emitted stays). -/
def runLines (st : St) : List L → Except (Fatal × St) St
  | [] => .ok st
  | l :: ls =>
    match step st l with
    | .ok st1 => runLines st1 ls
    | .error e => .error e

/-- The observable outcome of a successful run: the records handed to
`process_file_diff` (in call order) and the collected binary marker lines. -/
structure RunResult where
  records : List DiffRec
  binary_file_lines : List L
deriving DecidableEq, Repr

/-- Whole-stream processing (src/main.rs:53-129): run the loop, then flush
the last open record. -/
def runMain (input : List L) : Except (Fatal × St) RunResult :=
  match runLines initSt input with
  | .ok st => .ok ⟨flushRec st, st.binary_file_lines⟩
  | .error e => .error e

/-- The binary aggregate artifact (src/main.rs:131-137): written only when at
least one marker was collected; one trimmed marker line plus newline each. -/
def binaryAggregate (r : RunResult) : Option L :=
  if r.binary_file_lines = [] then none
  else some ((r.binary_file_lines.map (fun l => l ++ ['\n'])).flatten)

/-- The strip-level resolver at its interface: an explicit strip count wins,
`-1` selects auto-detection (src/main.rs:177-181). -/
def resolveStrip (strip : Int) (fromPath toPath : L) : Nat :=
  if strip = -1 then calculate_strip_value fromPath toPath else usizeOfI32 strip

/-- The formula claimed by the specification for auto-detected strip levels:
component count of the *to* path minus the shared-suffix length.  Stated
from the spec's words, for comparison with `calculate_strip_value`. -/
def spec_strip_to_based (fromPath toPath : L) : Nat :=
  (components toPath).length -
    ((((components fromPath).reverse).zip ((components toPath).reverse)).takeWhile
      (fun p => p.1 == p.2)).length

/-- Length of the longest common suffix of two lists, defined recursively
from the end (the spec's "walk both sequences from the end while
corresponding components are equal"). -/
def commonSuffixGo : List L → List L → Nat
  | a :: as, b :: bs => if a = b then commonSuffixGo as bs + 1 else 0
  | _, _ => 0

/-- Longest-common-suffix length of two component sequences. -/
def commonSuffixLen (xs ys : List L) : Nat := commonSuffixGo xs.reverse ys.reverse

/-- Output of the per-record line loop once the header-skipping phase is
over: every line emitted (masked when enabled), none skipped. -/
def writeAll (mask : Bool) : List L → L
  | [] => []
  | l :: ls => emitLine mask l ++ writeAll mask ls

/-- The `line_to_process` a masked candidate line is reduced to (the whole
trimmed line when it contains fewer than two delimiter occurrences). -/
def lineToProcessOf (t : L) : L :=
  if (lit "@@ ").isPrefixOf t then (lineToProcess2 t).1
  else if (lit "@@@ ").isPrefixOf t then (lineToProcess3 t).1
  else t

/-- A non-empty all-digit field, as matched by `[0-9]+`. -/
def digitsOk (a : L) : Bool := !a.isEmpty && a.all Char.isDigit

/-- An optional count field: empty, or a comma followed by a non-empty
all-digit run, as matched by `(,[0-9]+)?`. -/
def countOk : L → Bool
  | [] => true
  | c0 :: rest => c0 == ',' && (!rest.isEmpty && rest.all Char.isDigit)

/-- A well-formed two-file hunk header line (trimmed):
`@@ -a[,b] +c[,d] @@tail`. -/
def hunk2 (a b c d tail : L) : L :=
  lit "@@ -" ++ a ++ b ++ lit " +" ++ c ++ d ++ lit " @@" ++ tail

/-- The bytes the masker writes for a well-formed two-file hunk header:
start digits masked, counts and tail kept, one newline appended. -/
def hunk2Masked (a b c d tail : L) : L :=
  lit "@@ -" ++ maskDigits a ++ b ++ lit " +" ++ maskDigits c ++ d ++ lit " @@" ++
    tail ++ ['\n']

/-- A well-formed combined hunk header line (trimmed):
`@@@ -a[,b] -c[,d] +e[,f] @@@tail`. -/
def hunk3 (a b c d e f tail : L) : L :=
  lit "@@@ -" ++ a ++ b ++ lit " -" ++ c ++ d ++ lit " +" ++ e ++ f ++
    lit " @@@" ++ tail

/-- The bytes the masker writes for a well-formed combined hunk header. -/
def hunk3Masked (a b c d e f tail : L) : L :=
  lit "@@@ -" ++ maskDigits a ++ b ++ lit " -" ++ maskDigits c ++ d ++ lit " +" ++
    maskDigits e ++ f ++ lit " @@@" ++ tail ++ ['\n']

/-- A block: a `diff --` line followed by lines none of which is a
`diff --` line. -/
def BlockShape (seg : List L) : Prop :=
  ∃ d tl, seg = d :: tl ∧ isDiffL d = true ∧ ∀ x ∈ tl, isDiffL x = false

/-- `seg` is one file's diff block of `input`: a contiguous segment that
starts at a `diff --` line, contains no other `diff --` line, and extends up
to the next `diff --` line or to the end of the input. -/
def IsBlockOf (input seg : List L) : Prop :=
  ∃ pre post, input = pre ++ seg ++ post ∧ BlockShape seg ∧
    (post = [] ∨ ∃ d2 post2, post = d2 :: post2 ∧ isDiffL d2 = true)

/-- A record already emitted while consuming `P`: its block is closed by a
later `diff --` line. -/
def EmittedBlock (P : List L) (r : DiffRec) : Prop :=
  ∃ pre d2 post, P = pre ++ r.lines ++ d2 :: post ∧ BlockShape r.lines ∧
    isDiffL d2 = true

/-- Loop invariant of the classifier, over the consumed prefix `P`. -/
def LoopInv (P : List L) (st : St) : Prop :=
  (st.header_state = .Diff →
     st.current_file_lines = [] ∧ st.emitted = [] ∧ st.binary_file_lines = [] ∧
     st.is_binary = false ∧ st.full_path = none ∧ ∀ x ∈ P, isDiffL x = false) ∧
  (st.header_state ≠ .Diff →
     ∃ pre d tl, P = pre ++ d :: tl ∧ st.current_file_lines = d :: tl ∧
       isDiffL d = true ∧ ∀ x ∈ tl, isDiffL x = false) ∧
  (∀ r ∈ st.emitted, EmittedBlock P r) ∧
  st.binary_file_lines
    = ((P.dropWhile (fun x => !(isDiffL x))).filter isMarkerL).map trimEndL ∧
  (st.is_binary = false → ∀ x ∈ st.current_file_lines, isMarkerL x = false) ∧
  (∀ r ∈ st.emitted, ∀ x ∈ r.lines, isMarkerL x = false)

/-- The line shapes accepted in the three header states; any other line is a
fatal format error. -/
def badFor : HeaderState → L → Prop
  | .FromOrIndex, l => isIndexL l = false ∧ isFromL l = false
  | .From, l => isFromL l = false
  | .To, l => isToL l = false
  | _, _ => False

/-- The fatal error raised by each header state. -/
def fatalOf : HeaderState → Fatal
  | .From => .expectedFrom
  | .To => .expectedTo
  | _ => .expectedIndexOrFrom

/-- Demo stream for the round-trip witness: one well-formed file diff. -/
def demoIn : List L :=
  [lit "diff --git a/x b/x\n", lit "index 12..34 100644\n", lit "--- a/x\n",
   lit "+++ b/x\n", lit "@@ -1 +1 @@\n", lit "-old\n", lit "+new\n"]

/-- The record produced by `demoIn`. -/
def demoRec : DiffRec := ⟨demoIn, lit "b/x"⟩

/-- The run result of `demoIn`. -/
def demoRes : RunResult := ⟨[demoRec], []⟩

/-- Demo stream whose single record's body carries two binary markers. -/
def demoBin : List L :=
  [lit "diff --git a/x b/x\n", lit "--- a/x\n", lit "+++ b/x\n",
   lit "Binary files a/x and b/x differ\n", lit "Binary files c and d differ\n"]

/-- The run result of `demoBin`: no record emitted, two aggregate lines
contributed by the one binary record. -/
def demoBinRes : RunResult :=
  ⟨[], [lit "Binary files a/x and b/x differ", lit "Binary files c and d differ"]⟩

/-- Header prefix of the fatal-format witness stream. -/
def demoFatalPre : List L := [lit "diff --git a/f b/f\n", lit "--- a/f\n"]

/-- Classifier state after consuming `demoFatalPre`. -/
def demoFatalSt : St :=
  { header_state := .To,
    current_file_lines := [lit "diff --git a/f b/f\n", lit "--- a/f\n"],
    full_path := none, is_binary := false, binary_file_lines := [], emitted := [] }

/-- The zip/takeWhile/count idiom of `calculate_strip_value` computes the
longest-common-suffix length. -/
theorem zipTakeWhile_eq_commonSuffixGo (as bs : List L) :
    ((as.zip bs).takeWhile (fun p => p.1 == p.2)).length = commonSuffixGo as bs := by
  induction as generalizing bs with
  | nil => cases bs <;> simp [commonSuffixGo]
  | cons a as ih =>
    cases bs with
    | nil => simp [commonSuffixGo]
    | cons b bs =>
      simp only [List.zip_cons_cons]
      by_cases h : a = b
      · subst h
        rw [List.takeWhile_cons_of_pos (by simp)]
        simp [commonSuffixGo, ih]
      · rw [List.takeWhile_cons_of_neg (by simp [h])]
        simp [commonSuffixGo, h]

/-- C1, counterexample.  The claim states that the auto-detected strip value
equals `component_count(to_path) - common_suffix_len`; the code subtracts
from the *from* path's component count instead, and the two differ whenever
the paths have different depths: for from `"x/a/f.txt"`, to `"f.txt"` the
code returns 2 while the claimed formula yields 0. -/
theorem c1_strip_resolver_cex :
    resolveStrip (-1) (lit "x/a/f.txt") (lit "f.txt") = 2 ∧
    spec_strip_to_based (lit "x/a/f.txt") (lit "f.txt") = 0 ∧
    resolveStrip (-1) (lit "x/a/f.txt") (lit "f.txt")
      ≠ spec_strip_to_based (lit "x/a/f.txt") (lit "f.txt") := by
  decide

/-- C1, amended.  With no explicit strip count the resolver returns
`component_count(from_path) - common_suffix_len`, where `common_suffix_len`
is the number of trailing components the two paths share byte-for-byte; on
the rename example `from "a/old/name.txt"`, `to "b/new/name.txt"` the common
suffix is one component and the result is 2. -/
theorem c1_strip_resolver_amended :
    (∀ fromPath toPath : L, resolveStrip (-1) fromPath toPath
      = (components fromPath).length
          - commonSuffixLen (components fromPath) (components toPath)) ∧
    resolveStrip (-1) (lit "a/old/name.txt") (lit "b/new/name.txt") = 2 := by
  constructor
  · intro fromPath toPath
    simp [resolveStrip, calculate_strip_value, commonSuffixLen,
      zipTakeWhile_eq_commonSuffixGo]
  · decide

/-- C8.  Path stripping: strip value 0 returns the path unchanged; with
more components than the strip value the first `n` components are dropped
and the rest rejoined; otherwise the result falls back to the final normal
component (empty when there is none); an empty stripped path makes
`process_file_diff` skip the record with no output and no error. -/
theorem c8_strip_path : ∀ (full : L) (n : Nat) (lines : List L) (args : Args),
    (n = 0 → stripPath full n = full) ∧
    (0 < n → n < (components full).length →
        stripPath full n = joinComps ((components full).drop n)) ∧
    (0 < n → (components full).length ≤ n →
        stripPath full n = (fileNameOf full).getD []) ∧
    (stripPath full (stripValueOf args lines) = [] →
        process_file_diff lines full args = none) := by
  intro full n lines args
  refine ⟨?_, ?_, ?_, ?_⟩
  · intro h
    subst h
    simp [stripPath]
  · intro h1 h2
    simp only [stripPath]
    rw [if_pos h1, if_pos (by omega : (components full).length > n)]
  · intro h1 h2
    simp only [stripPath]
    rw [if_pos h1, if_neg (by omega : ¬ (components full).length > n)]
    cases fileNameOf full <;> rfl
  · intro h
    simp only [process_file_diff]
    rw [if_pos h]

/-- C8, witness. -/
theorem c8_strip_path_witness :
    stripPath (lit "a/b/c.txt") 1 = lit "b/c.txt" ∧
    process_file_diff [] (lit "a/..") ⟨5, false, false⟩ = none := by
  constructor
  · have h := (c8_strip_path (lit "a/b/c.txt") 1 [] ⟨5, false, false⟩).2.1
      (by decide) (by decide)
    rw [h]
    decide
  · exact (c8_strip_path (lit "a/..") 5 [] ⟨5, false, false⟩).2.2.2 (by decide)

/-- Once the header phase is over, the loop emits every remaining line. -/
theorem recordOutputAux_true_eq (mask skip : Bool) (ls : List L) :
    recordOutputAux mask skip true ls = writeAll mask ls := by
  induction ls with
  | nil => rfl
  | cons l ls ih => simp [recordOutputAux, writeAll, ih]

/-- C9.  With the skip-header flag set, the output of a record is exactly
the output of the plain line writer on the record minus its longest leading
run of header-shaped lines: the leading `diff --`/`index `/`--- `/`+++ `
lines are omitted, and from the first other line on every line is written
(masked when masking is enabled), including later lines that start with a
header prefix. -/
theorem c9_skip_header : ∀ (mask : Bool) (lines : List L),
    recordOutput mask true lines
      = writeAll mask (lines.dropWhile (fun l => isHeaderPrefix (trimEndL l))) := by
  intro mask lines
  induction lines with
  | nil => rfl
  | cons l ls ih =>
    by_cases h : isHeaderPrefix (trimEndL l) = true
    · rw [List.dropWhile_cons_of_pos (by simpa using h)]
      simpa [recordOutput, recordOutputAux, h] using ih
    · rw [List.dropWhile_cons_of_neg (by simpa using h)]
      simp [recordOutput, recordOutputAux, h, writeAll, recordOutputAux_true_eq]

/-- C2, counterexample.  A `"@@ "` line that does not match the hunk-header
grammar is *not* written through byte-identically: the code re-assembles
only the text up to the second delimiter, so the tail after the second `@@`
and the line terminator are dropped. -/
theorem c2_passthrough_cex :
    emitLine true (lit "@@ garbage @@ tail\n") = lit "@@ garbage @@" ∧
    emitLine true (lit "@@ garbage @@ tail\n") ≠ lit "@@ garbage @@ tail\n" := by
  decide

/-- C5, counterexample.  Masking does not leave the tail untouched at byte
level: the whole line is `trim_end`ed first, so a tail ending in whitespace
loses that whitespace (and the terminator is rebuilt as a single `\n`). -/
theorem c5_mask2_cex :
    emitLine true (lit "@@ -1 +2 @@ t \n") = lit "@@ -X +X @@ t\n" ∧
    emitLine true (lit "@@ -1 +2 @@ t \n") ≠ lit "@@ -X +X @@ t \n" := by
  decide

/-- C6, counterexample.  Same trailing-whitespace trimming for combined
`@@@` headers: the tail is not byte-identical when it ends in whitespace. -/
theorem c6_mask3_cex :
    emitLine true (lit "@@@ -1,3 -1,3 +1,4 @@@ x \n") = lit "@@@ -X,3 -X,3 +X,4 @@@ x\n" ∧
    emitLine true (lit "@@@ -1,3 -1,3 +1,4 @@@ x \n") ≠ lit "@@@ -X,3 -X,3 +X,4 @@@ x \n" := by
  decide

/-- C7, counterexample.  A single record whose body contains two
`Binary files ` lines contributes *two* lines to the binary aggregate, not
exactly one: `demoBin` is one diff record and yields two aggregate lines. -/
theorem c7_binary_cex :
    runMain demoBin = .ok demoBinRes ∧
    demoBinRes.records = [] ∧
    demoBinRes.binary_file_lines.length = 2 := by
  exact ⟨rfl, rfl, rfl⟩

@[simp] theorem lit_dd : lit "@@" = ['@', '@'] := rfl

@[simp] theorem lit_ddd : lit "@@@" = ['@', '@', '@'] := rfl

@[simp] theorem lit_dds : lit "@@ " = ['@', '@', ' '] := rfl

@[simp] theorem lit_ddds : lit "@@@ " = ['@', '@', '@', ' '] := rfl

@[simp] theorem lit_ddsm : lit "@@ -" = ['@', '@', ' ', '-'] := rfl

@[simp] theorem lit_dddsm : lit "@@@ -" = ['@', '@', '@', ' ', '-'] := rfl

@[simp] theorem lit_sp : lit " +" = [' ', '+'] := rfl

@[simp] theorem lit_sm : lit " -" = [' ', '-'] := rfl

@[simp] theorem lit_sdd : lit " @@" = [' ', '@', '@'] := rfl

@[simp] theorem lit_sddd : lit " @@@" = [' ', '@', '@', '@'] := rfl

/-- A found split decomposes the list around the separator. -/
theorem findSplit_some (sep : L) :
    ∀ (l x y : L), findSplit sep l = some (x, y) → l = x ++ sep ++ y := by
  intro l
  induction l with
  | nil =>
    intro x y h
    by_cases hs : sep = []
    · subst hs
      simp [findSplit] at h
      simp [h.1, h.2]
    · simp [findSplit, hs] at h
  | cons c rest ih =>
    intro x y h
    simp only [findSplit] at h
    by_cases hp : sep.isPrefixOf (c :: rest) = true
    · rw [if_pos hp] at h
      rcases List.isPrefixOf_iff_prefix.mp hp with ⟨t, htp⟩
      injection h with h1
      injection h1 with hx hy
      subst hx
      rw [← htp] at hy ⊢
      rw [List.drop_left] at hy
      simp [hy]
    · rw [if_neg hp] at h
      cases hfs : findSplit sep rest with
      | none => rw [hfs] at h; cases h
      | some p =>
        obtain ⟨x', y'⟩ := p
        rw [hfs] at h
        injection h with h1
        injection h1 with hx hy
        subst hx
        subst hy
        have := ih x' y' hfs
        simp [this]

/-- `findSplit` on a list that starts with the two-char delimiter. -/
theorem findSplit_at2 (rest : L) :
    findSplit ['@', '@'] ('@' :: '@' :: rest) = some ([], rest) := by
  simp [findSplit, List.isPrefixOf]

/-- `findSplit` on a list that starts with the three-char delimiter. -/
theorem findSplit_at3 (rest : L) :
    findSplit ['@', '@', '@'] ('@' :: '@' :: '@' :: rest) = some ([], rest) := by
  simp [findSplit, List.isPrefixOf]

/-- When no `@` occurs before it, the two-char delimiter is found exactly at
its position. -/
theorem findSplit_no_at2 (x y : L) (hx : ∀ c ∈ x, c ≠ '@') :
    findSplit ['@', '@'] (x ++ '@' :: '@' :: y) = some (x, y) := by
  induction x with
  | nil => simpa using findSplit_at2 y
  | cons c x ih =>
    have hc : c ≠ '@' := hx c (by simp)
    have hx' : ∀ c' ∈ x, c' ≠ '@' := fun c' hc' => hx c' (by simp [hc'])
    have hneg : ¬ (['@', '@'].isPrefixOf (c :: (x ++ '@' :: '@' :: y)) = true) := by
      simp only [List.isPrefixOf, Bool.and_eq_true, beq_iff_eq]
      rintro ⟨h1, -⟩
      exact hc h1.symm
    simp only [List.cons_append, findSplit, List.append_eq]
    rw [if_neg hneg, ih hx']

/-- When no `@` occurs before it, the three-char delimiter is found exactly
at its position. -/
theorem findSplit_no_at3 (x y : L) (hx : ∀ c ∈ x, c ≠ '@') :
    findSplit ['@', '@', '@'] (x ++ '@' :: '@' :: '@' :: y) = some (x, y) := by
  induction x with
  | nil => simpa using findSplit_at3 y
  | cons c x ih =>
    have hc : c ≠ '@' := hx c (by simp)
    have hx' : ∀ c' ∈ x, c' ≠ '@' := fun c' hc' => hx c' (by simp [hc'])
    have hneg : ¬ (['@', '@', '@'].isPrefixOf (c :: (x ++ '@' :: '@' :: '@' :: y)) = true) := by
      simp only [List.isPrefixOf, Bool.and_eq_true, beq_iff_eq]
      rintro ⟨h1, -⟩
      exact hc h1.symm
    simp only [List.cons_append, findSplit, List.append_eq]
    rw [if_neg hneg, ih hx']

/-- `splitn(3, "@@")` on a well-shaped two-file hunk header. -/
theorem splitn3_header2 (mid tail : L) (hmid : ∀ c ∈ mid, c ≠ '@') :
    splitn3 (lit "@@") ('@' :: '@' :: (mid ++ '@' :: '@' :: tail)) = [[], mid, tail] := by
  simp [splitn3, findSplit_at2, findSplit_no_at2 mid tail hmid]

/-- `splitn(3, "@@@")` on a well-shaped combined hunk header. -/
theorem splitn3_header3 (mid tail : L) (hmid : ∀ c ∈ mid, c ≠ '@') :
    splitn3 (lit "@@@") ('@' :: '@' :: '@' :: (mid ++ '@' :: '@' :: '@' :: tail))
      = [[], mid, tail] := by
  simp [splitn3, findSplit_at3, findSplit_no_at3 mid tail hmid]

/-- A maximal digit run splits off exactly when what follows starts with a
non-digit. -/
theorem spanDigits_append (a r : L) (ha : ∀ c ∈ a, c.isDigit = true)
    (hr : ∀ c, r.head? = some c → c.isDigit = false) :
    spanDigits (a ++ r) = (a, r) := by
  have ht : r.takeWhile Char.isDigit = [] := by
    cases r with
    | nil => rfl
    | cons c r' => rw [List.takeWhile_cons_of_neg (by simp [hr c rfl])]
  have hd : r.dropWhile Char.isDigit = r := by
    cases r with
    | nil => rfl
    | cons c r' => rw [List.dropWhile_cons_of_neg (by simp [hr c rfl])]
  simp [spanDigits, List.takeWhile_append_of_pos (by simpa using ha),
    List.dropWhile_append_of_pos (by simpa using ha), ht, hd]

/-- The optional count group consumes exactly a well-formed count field when
a space follows it. -/
theorem optCount_app (b y : L) (hb : countOk b = true) :
    optCount (b ++ ' ' :: y) = (b, ' ' :: y) := by
  cases b with
  | nil =>
    cases y with
    | nil => rfl
    | cons c' y' =>
      simp only [List.nil_append, optCount]
      rw [if_neg (by simp)]
  | cons c0 rest =>
    simp only [countOk, Bool.and_eq_true, beq_iff_eq, Bool.not_eq_true',
      List.all_eq_true] at hb
    obtain ⟨hcomma, hne, hdig⟩ := hb
    subst hcomma
    cases rest with
    | nil => simp [List.isEmpty] at hne
    | cons c1 rest' =>
      simp only [List.cons_append, optCount]
      rw [if_pos (by simp [hdig c1 (by simp)])]
      have hsp : spanDigits (c1 :: (rest' ++ ' ' :: y)) = (c1 :: rest', ' ' :: y) := by
        have := spanDigits_append (c1 :: rest') (' ' :: y)
          (fun c hc => hdig c hc) (fun c hc => by simp at hc; subst hc; rfl)
        simpa using this
      rw [hsp]

/-- Unfolding of a well-formed start field. -/
theorem digitsOk_spec (a : L) (h : digitsOk a = true) :
    a ≠ [] ∧ ∀ c ∈ a, c.isDigit = true := by
  simp only [digitsOk, Bool.and_eq_true, Bool.not_eq_true', List.isEmpty_eq_false,
    List.all_eq_true] at h
  exact ⟨h.1, fun c hc => h.2 c hc⟩

/-- Characters of a well-formed optional count field. -/
theorem countOk_chars (b : L) (hb : countOk b = true) :
    ∀ x ∈ b, x = ',' ∨ x.isDigit = true := by
  cases b with
  | nil => simp
  | cons c0 rest =>
    simp only [countOk, Bool.and_eq_true, beq_iff_eq, Bool.not_eq_true',
      List.all_eq_true] at hb
    obtain ⟨hcomma, -, hdig⟩ := hb
    intro x hx
    rcases List.mem_cons.mp hx with h | h
    · exact Or.inl (h.trans hcomma)
    · exact Or.inr (hdig x h)

/-- The head of a count field followed by a non-digit head is not a digit. -/
theorem countOk_head_not_digit (b y : L) (hb : countOk b = true)
    (hy : ∀ c, y.head? = some c → c.isDigit = false) :
    ∀ c, ((b ++ y).head? = some c) → c.isDigit = false := by
  cases b with
  | nil => simpa using hy
  | cons c0 rest =>
    simp only [countOk, Bool.and_eq_true, beq_iff_eq] at hb
    intro c hc
    simp only [List.cons_append, List.head?_cons, Option.some.injEq] at hc
    subst hc
    rw [hb.1]
    rfl

/-- A non-digit head after a space. -/
theorem space_head_not_digit (z : L) :
    ∀ c, ((' ' :: z).head? = some c) → c.isDigit = false := by
  intro c hc
  simp only [List.head?_cons, Option.some.injEq] at hc
  subst hc
  rfl

/-- `parseCore2` on a well-formed two-file hunk core, with its masked
replacement. -/
theorem parseCore2_hunk (a b c d : L)
    (ha : digitsOk a = true) (hb : countOk b = true)
    (hc : digitsOk c = true) (hd : countOk d = true) :
    parseCore2 ('@' :: '@' :: ' ' :: '-' ::
        (a ++ (b ++ (' ' :: '+' :: (c ++ (d ++ [' ', '@', '@'])))))) =
      some (lit "@@ -" ++ maskDigits a ++ b ++ lit " +" ++ maskDigits c ++ d ++ lit " @@") := by
  obtain ⟨hane, hadig⟩ := digitsOk_spec a ha
  obtain ⟨hcne, hcdig⟩ := digitsOk_spec c hc
  have h1 : spanDigits (a ++ (b ++ (' ' :: '+' :: (c ++ (d ++ [' ', '@', '@'])))))
      = (a, b ++ (' ' :: '+' :: (c ++ (d ++ [' ', '@', '@'])))) :=
    spanDigits_append _ _ hadig (countOk_head_not_digit b _ hb (space_head_not_digit _))
  have h2 : optCount (b ++ ' ' :: '+' :: (c ++ (d ++ [' ', '@', '@'])))
      = (b, ' ' :: '+' :: (c ++ (d ++ [' ', '@', '@']))) := optCount_app b _ hb
  have h3 : spanDigits (c ++ (d ++ [' ', '@', '@'])) = (c, d ++ [' ', '@', '@']) :=
    spanDigits_append _ _ hcdig (countOk_head_not_digit d _ hd (space_head_not_digit _))
  have h4 : optCount (d ++ ' ' :: ['@', '@']) = (d, ' ' :: ['@', '@']) := optCount_app d _ hd
  simp only [parseCore2, h1, h2, h3, h4]
  rw [if_neg hane, if_neg hcne]

/-- `parseCore3` on a well-formed combined hunk core, with its masked
replacement. -/
theorem parseCore3_hunk (a b c d e f : L)
    (ha : digitsOk a = true) (hb : countOk b = true)
    (hc : digitsOk c = true) (hd : countOk d = true)
    (he : digitsOk e = true) (hf : countOk f = true) :
    parseCore3 ('@' :: '@' :: '@' :: ' ' :: '-' ::
        (a ++ (b ++ (' ' :: '-' :: (c ++ (d ++ (' ' :: '+' ::
          (e ++ (f ++ [' ', '@', '@', '@']))))))))) =
      some (lit "@@@ -" ++ maskDigits a ++ b ++ lit " -" ++ maskDigits c ++ d ++
        lit " +" ++ maskDigits e ++ f ++ lit " @@@") := by
  obtain ⟨hane, hadig⟩ := digitsOk_spec a ha
  obtain ⟨hcne, hcdig⟩ := digitsOk_spec c hc
  obtain ⟨hene, hedig⟩ := digitsOk_spec e he
  have h1 : spanDigits (a ++ (b ++ (' ' :: '-' :: (c ++ (d ++ (' ' :: '+' ::
        (e ++ (f ++ [' ', '@', '@', '@']))))))))
      = (a, b ++ (' ' :: '-' :: (c ++ (d ++ (' ' :: '+' ::
        (e ++ (f ++ [' ', '@', '@', '@']))))))) :=
    spanDigits_append _ _ hadig (countOk_head_not_digit b _ hb (space_head_not_digit _))
  have h2 : optCount (b ++ ' ' :: '-' :: (c ++ (d ++ (' ' :: '+' ::
        (e ++ (f ++ [' ', '@', '@', '@']))))))
      = (b, ' ' :: '-' :: (c ++ (d ++ (' ' :: '+' ::
        (e ++ (f ++ [' ', '@', '@', '@'])))))) := optCount_app b _ hb
  have h3 : spanDigits (c ++ (d ++ (' ' :: '+' :: (e ++ (f ++ [' ', '@', '@', '@'])))))
      = (c, d ++ (' ' :: '+' :: (e ++ (f ++ [' ', '@', '@', '@'])))) :=
    spanDigits_append _ _ hcdig (countOk_head_not_digit d _ hd (space_head_not_digit _))
  have h4 : optCount (d ++ ' ' :: '+' :: (e ++ (f ++ [' ', '@', '@', '@'])))
      = (d, ' ' :: '+' :: (e ++ (f ++ [' ', '@', '@', '@']))) := optCount_app d _ hd
  have h5 : spanDigits (e ++ (f ++ [' ', '@', '@', '@'])) = (e, f ++ [' ', '@', '@', '@']) :=
    spanDigits_append _ _ hedig (countOk_head_not_digit f _ hf (space_head_not_digit _))
  have h6 : optCount (f ++ ' ' :: ['@', '@', '@']) = (f, ' ' :: ['@', '@', '@']) :=
    optCount_app f _ hf
  simp only [parseCore3, h1, h2, h3, h4, h5, h6]
  rw [if_neg hane, if_neg hcne, if_neg hene]

/-- Characters of a hunk-header middle section are never `@`. -/
theorem hunk2_mid_no_at (a b c d : L)
    (ha : digitsOk a = true) (hb : countOk b = true)
    (hc : digitsOk c = true) (hd : countOk d = true) :
    ∀ x ∈ (' ' :: '-' :: (a ++ (b ++ (' ' :: '+' :: (c ++ (d ++ [' '])))))), x ≠ '@' := by
  have hdig : ∀ x : Char, x.isDigit = true → x ≠ '@' := by
    intro x hx heq
    subst heq
    simp at hx
  intro x hx
  simp only [List.mem_cons, List.mem_append, List.mem_singleton] at hx
  rcases hx with rfl | rfl | hx | hx | rfl | rfl | hx | hx | hlast
  · decide
  · decide
  · exact hdig x ((digitsOk_spec a ha).2 x hx)
  · rcases countOk_chars b hb x hx with rfl | h
    · decide
    · exact hdig x h
  · decide
  · decide
  · exact hdig x ((digitsOk_spec c hc).2 x hx)
  · rcases countOk_chars d hd x hx with rfl | h
    · decide
    · exact hdig x h
  · rcases hlast with rfl | h
    · decide
    · simp at h

/-- Characters of a combined hunk-header middle section are never `@`. -/
theorem hunk3_mid_no_at (a b c d e f : L)
    (ha : digitsOk a = true) (hb : countOk b = true)
    (hc : digitsOk c = true) (hd : countOk d = true)
    (he : digitsOk e = true) (hf : countOk f = true) :
    ∀ x ∈ (' ' :: '-' :: (a ++ (b ++ (' ' :: '-' :: (c ++ (d ++ (' ' :: '+' ::
        (e ++ (f ++ [' ']))))))))), x ≠ '@' := by
  have hdig : ∀ x : Char, x.isDigit = true → x ≠ '@' := by
    intro x hx heq
    subst heq
    simp at hx
  intro x hx
  simp only [List.mem_cons, List.mem_append, List.mem_singleton] at hx
  rcases hx with rfl | rfl | hx | hx | rfl | rfl | hx | hx | rfl | rfl | hx | hx | hlast
  · decide
  · decide
  · exact hdig x ((digitsOk_spec a ha).2 x hx)
  · rcases countOk_chars b hb x hx with rfl | h
    · decide
    · exact hdig x h
  · decide
  · decide
  · exact hdig x ((digitsOk_spec c hc).2 x hx)
  · rcases countOk_chars d hd x hx with rfl | h
    · decide
    · exact hdig x h
  · decide
  · decide
  · exact hdig x ((digitsOk_spec e he).2 x hx)
  · rcases countOk_chars f hf x hx with rfl | h
    · decide
    · exact hdig x h
  · rcases hlast with rfl | h
    · decide
    · simp at h

/-- The masker output on a well-formed (trimmed) two-file hunk header. -/
theorem mask2Emit_header (a b c d tail : L)
    (ha : digitsOk a = true) (hb : countOk b = true)
    (hc : digitsOk c = true) (hd : countOk d = true) :
    mask2Emit (hunk2 a b c d tail) = hunk2Masked a b c d tail := by
  have hmid := hunk2_mid_no_at a b c d ha hb hc hd
  have hshape : hunk2 a b c d tail
      = '@' :: '@' :: ((' ' :: '-' :: (a ++ (b ++ (' ' :: '+' :: (c ++ (d ++ [' '])))))) ++
          '@' :: '@' :: tail) := by
    simp [hunk2, List.append_assoc]
  have harg : lit "@@" ++ (' ' :: '-' :: (a ++ (b ++ (' ' :: '+' :: (c ++ (d ++ [' '])))))) ++
        lit "@@"
      = '@' :: '@' :: ' ' :: '-' ::
          (a ++ (b ++ (' ' :: '+' :: (c ++ (d ++ [' ', '@', '@']))))) := by
    simp [List.append_assoc]
  rw [hshape]
  simp only [mask2Emit, lineToProcess2, splitn3_header2 _ tail hmid]
  rw [harg, parseCore2_hunk a b c d ha hb hc hd]
  simp [hunk2Masked, List.append_assoc]

/-- The masker output on a well-formed (trimmed) combined hunk header. -/
theorem mask3Emit_header (a b c d e f tail : L)
    (ha : digitsOk a = true) (hb : countOk b = true)
    (hc : digitsOk c = true) (hd : countOk d = true)
    (he : digitsOk e = true) (hf : countOk f = true) :
    mask3Emit (hunk3 a b c d e f tail) = hunk3Masked a b c d e f tail := by
  have hmid := hunk3_mid_no_at a b c d e f ha hb hc hd he hf
  have hshape : hunk3 a b c d e f tail
      = '@' :: '@' :: '@' :: ((' ' :: '-' :: (a ++ (b ++ (' ' :: '-' :: (c ++ (d ++
          (' ' :: '+' :: (e ++ (f ++ [' ']))))))))) ++ '@' :: '@' :: '@' :: tail) := by
    simp [hunk3, List.append_assoc]
  have harg : lit "@@@" ++ (' ' :: '-' :: (a ++ (b ++ (' ' :: '-' :: (c ++ (d ++
        (' ' :: '+' :: (e ++ (f ++ [' ']))))))))) ++ lit "@@@"
      = '@' :: '@' :: '@' :: ' ' :: '-' ::
          (a ++ (b ++ (' ' :: '-' :: (c ++ (d ++ (' ' :: '+' ::
            (e ++ (f ++ [' ', '@', '@', '@'])))))))) := by
    simp [List.append_assoc]
  rw [hshape]
  simp only [mask3Emit, lineToProcess3, splitn3_header3 _ tail hmid]
  rw [harg, parseCore3_hunk a b c d e f ha hb hc hd he hf]
  simp [hunk3Masked, List.append_assoc]

/-- C5, amended.  For every line whose trimmed form is a grammatical
two-file hunk header `@@ -a[,b] +c[,d] @@tail` (so the tail carries no
trailing whitespace — the whole line is `trim_end`ed first), masking
replaces every digit of the two start fields with `X`, keeps the count
fields, commas, signs, spacing, delimiters and the (trimmed) tail, and
terminates the output with a single `\n`; in particular
`@@ -10,5 +20,5 @@ fn foo() {` masks to `@@ -XX,5 +XX,5 @@ fn foo() {`. -/
theorem c5_mask2_amended : ∀ (l a b c d tail : L),
    digitsOk a = true → countOk b = true → digitsOk c = true → countOk d = true →
    trimEndL l = hunk2 a b c d tail →
    emitLine true l = hunk2Masked a b c d tail := by
  intro l a b c d tail ha hb hc hd ht
  have hpfx : (lit "@@ ").isPrefixOf (trimEndL l) = true := by
    rw [ht]
    simp [hunk2, List.isPrefixOf]
  simp only [emitLine, if_true]
  rw [if_pos hpfx, ht]
  exact mask2Emit_header a b c d tail ha hb hc hd

/-- C5, witness: the spec's own example. -/
theorem c5_mask2_witness :
    (digitsOk (lit "10") = true ∧ countOk (lit ",5") = true ∧
     digitsOk (lit "20") = true ∧
     trimEndL (lit "@@ -10,5 +20,5 @@ fn foo() \x7b\n")
       = hunk2 (lit "10") (lit ",5") (lit "20") (lit ",5") (lit " fn foo() \x7b")) ∧
    emitLine true (lit "@@ -10,5 +20,5 @@ fn foo() \x7b\n")
      = hunk2Masked (lit "10") (lit ",5") (lit "20") (lit ",5") (lit " fn foo() \x7b") := by
  constructor
  · exact ⟨by decide, by decide, by decide, by decide⟩
  · exact c5_mask2_amended _ _ _ _ _ _ (by decide) (by decide) (by decide) (by decide)
      (by decide)

/-- C6, amended.  For every line whose trimmed form is a grammatical
combined hunk header `@@@ -a[,b] -c[,d] +e[,f] @@@tail`, masking replaces
every digit of the three start fields with `X`, keeps counts, delimiters and
the (trimmed) tail — trailing whitespace of the line having been removed
first — and appends a single `\n`; in particular `@@@ -1,3 -1,3 +1,4 @@@`
masks to `@@@ -X,3 -X,3 +X,4 @@@`. -/
theorem c6_mask3_amended : ∀ (l a b c d e f tail : L),
    digitsOk a = true → countOk b = true → digitsOk c = true → countOk d = true →
    digitsOk e = true → countOk f = true →
    trimEndL l = hunk3 a b c d e f tail →
    emitLine true l = hunk3Masked a b c d e f tail := by
  intro l a b c d e f tail ha hb hc hd he hf ht
  have hpfx3 : (lit "@@@ ").isPrefixOf (trimEndL l) = true := by
    rw [ht]
    simp [hunk3, List.isPrefixOf]
  have hnot2 : ¬ ((lit "@@ ").isPrefixOf (trimEndL l) = true) := by
    rw [ht]
    simp [hunk3, List.isPrefixOf]
  simp only [emitLine, if_true]
  rw [if_neg hnot2, if_pos hpfx3, ht]
  exact mask3Emit_header a b c d e f tail ha hb hc hd he hf

/-- C6, witness: the spec's own example. -/
theorem c6_mask3_witness :
    (digitsOk (lit "1") = true ∧ countOk (lit ",3") = true ∧
     trimEndL (lit "@@@ -1,3 -1,3 +1,4 @@@\n")
       = hunk3 (lit "1") (lit ",3") (lit "1") (lit ",3") (lit "1") (lit ",4") []) ∧
    emitLine true (lit "@@@ -1,3 -1,3 +1,4 @@@\n")
      = hunk3Masked (lit "1") (lit ",3") (lit "1") (lit ",3") (lit "1") (lit ",4") [] := by
  constructor
  · exact ⟨by decide, by decide, by decide⟩
  · exact c6_mask3_amended _ _ _ _ _ _ _ _ (by decide) (by decide) (by decide) (by decide)
      (by decide) (by decide) (by decide)

/-- The re-assembled `line_to_process` is always a prefix of the trimmed
`"@@ "` line it came from (the dropped part being the tail after the second
delimiter). -/
theorem lineToProcess2_fst_prefix (t : L) (h : (lit "@@ ").isPrefixOf t = true) :
    (lineToProcess2 t).1.isPrefixOf t = true := by
  rcases List.isPrefixOf_iff_prefix.mp h with ⟨t0, ht0⟩
  subst ht0
  simp only [lit_dds, List.cons_append, List.nil_append]
  have h1 : findSplit ['@', '@'] ('@' :: '@' :: ' ' :: t0) = some ([], ' ' :: t0) :=
    findSplit_at2 (' ' :: t0)
  cases hfs : findSplit (['@', '@'] : L) (' ' :: t0) with
  | none =>
    have hltp : lineToProcess2 ('@' :: '@' :: ' ' :: t0) = ('@' :: '@' :: ' ' :: t0, []) := by
      simp [lineToProcess2, splitn3, h1, hfs]
    rw [hltp]
    exact List.isPrefixOf_iff_prefix.mpr (List.prefix_refl _)
  | some p =>
    obtain ⟨x, y⟩ := p
    have hdec := findSplit_some ['@', '@'] (' ' :: t0) x y hfs
    have hltp : lineToProcess2 ('@' :: '@' :: ' ' :: t0) = (lit "@@" ++ x ++ lit "@@", y) := by
      simp [lineToProcess2, splitn3, h1, hfs]
    rw [hltp]
    refine List.isPrefixOf_iff_prefix.mpr ⟨y, ?_⟩
    rw [hdec]
    simp [List.append_assoc]

/-- The re-assembled `line_to_process` is always a prefix of the trimmed
`"@@@ "` line it came from. -/
theorem lineToProcess3_fst_prefix (t : L) (h : (lit "@@@ ").isPrefixOf t = true) :
    (lineToProcess3 t).1.isPrefixOf t = true := by
  rcases List.isPrefixOf_iff_prefix.mp h with ⟨t0, ht0⟩
  subst ht0
  simp only [lit_ddds, List.cons_append, List.nil_append]
  have h1 : findSplit ['@', '@', '@'] ('@' :: '@' :: '@' :: ' ' :: t0) = some ([], ' ' :: t0) :=
    findSplit_at3 (' ' :: t0)
  cases hfs : findSplit (['@', '@', '@'] : L) (' ' :: t0) with
  | none =>
    have hltp : lineToProcess3 ('@' :: '@' :: '@' :: ' ' :: t0)
        = ('@' :: '@' :: '@' :: ' ' :: t0, []) := by
      simp [lineToProcess3, splitn3, h1, hfs]
    rw [hltp]
    exact List.isPrefixOf_iff_prefix.mpr (List.prefix_refl _)
  | some p =>
    obtain ⟨x, y⟩ := p
    have hdec := findSplit_some ['@', '@', '@'] (' ' :: t0) x y hfs
    have hltp : lineToProcess3 ('@' :: '@' :: '@' :: ' ' :: t0)
        = (lit "@@@" ++ x ++ lit "@@@", y) := by
      simp [lineToProcess3, splitn3, h1, hfs]
    rw [hltp]
    refine List.isPrefixOf_iff_prefix.mpr ⟨y, ?_⟩
    rw [hdec]
    simp [List.append_assoc]

/-- C2, amended.  A candidate hunk-header line (trimmed form starting
`"@@ "` or `"@@@ "`) that does not match the grammar raises no error, but it
is not written through byte-identically: the output is `line_to_process` —
the trimmed line truncated at the end of the second delimiter occurrence —
so any tail after the second delimiter and the line terminator are dropped.
In particular the output is a prefix of the trimmed line. -/
theorem c2_passthrough_amended : ∀ l : L,
    (((lit "@@ ").isPrefixOf (trimEndL l) = true ∧
        parseCore2 (lineToProcess2 (trimEndL l)).1 = none) ∨
     ((lit "@@@ ").isPrefixOf (trimEndL l) = true ∧
        parseCore3 (lineToProcess3 (trimEndL l)).1 = none)) →
    emitLine true l = lineToProcessOf (trimEndL l) ∧
    (lineToProcessOf (trimEndL l)).isPrefixOf (trimEndL l) = true := by
  intro l h
  rcases h with ⟨hp, hn⟩ | ⟨hp, hn⟩
  · have hp' := List.isPrefixOf_iff_prefix.mp hp
    constructor
    · have hL : emitLine true l = (lineToProcess2 (trimEndL l)).1 := by
        simp only [emitLine, if_true]
        rw [if_pos hp]
        simp [mask2Emit, hn]
      have hR : lineToProcessOf (trimEndL l) = (lineToProcess2 (trimEndL l)).1 := by
        simp only [lineToProcessOf]
        rw [if_pos hp]
      rw [hL, hR]
    · simp only [lineToProcessOf]
      rw [if_pos hp]
      exact lineToProcess2_fst_prefix _ hp
  · have hp' := List.isPrefixOf_iff_prefix.mp hp
    have hnot2 : ¬ ((lit "@@ ").isPrefixOf (trimEndL l) = true) := by
      rcases List.isPrefixOf_iff_prefix.mp hp with ⟨t0, ht0⟩
      rw [← ht0]
      simp [List.isPrefixOf]
    have hnot2' : ¬ (lit "@@ " <+: trimEndL l) :=
      fun hq => hnot2 (List.isPrefixOf_iff_prefix.mpr hq)
    constructor
    · have hL : emitLine true l = (lineToProcess3 (trimEndL l)).1 := by
        simp only [emitLine, if_true]
        rw [if_neg hnot2, if_pos hp]
        simp [mask3Emit, hn]
      have hR : lineToProcessOf (trimEndL l) = (lineToProcess3 (trimEndL l)).1 := by
        simp only [lineToProcessOf]
        rw [if_neg hnot2, if_pos hp]
      rw [hL, hR]
    · simp only [lineToProcessOf]
      rw [if_neg hnot2, if_pos hp]
      exact lineToProcess3_fst_prefix _ hp

/-- C2, witness. -/
theorem c2_passthrough_witness :
    ((lit "@@ ").isPrefixOf (trimEndL (lit "@@ garbage @@ tail\n")) = true ∧
      parseCore2 (lineToProcess2 (trimEndL (lit "@@ garbage @@ tail\n"))).1 = none) ∧
    (emitLine true (lit "@@ garbage @@ tail\n")
        = lineToProcessOf (trimEndL (lit "@@ garbage @@ tail\n")) ∧
      (lineToProcessOf (trimEndL (lit "@@ garbage @@ tail\n"))).isPrefixOf
        (trimEndL (lit "@@ garbage @@ tail\n")) = true) := by
  constructor
  · exact ⟨by decide, by decide⟩
  · exact c2_passthrough_amended _ (Or.inl ⟨by decide, by decide⟩)

/-- Trimming ignores a trailing all-whitespace run. -/
theorem trimEndL_append_ws (x w : L) (hw : ∀ c ∈ w, isWS c = true) :
    trimEndL (x ++ w) = trimEndL x := by
  unfold trimEndL
  rw [List.reverse_append,
    List.dropWhile_append_of_pos (fun c hc => hw c (List.mem_reverse.mp hc))]

/-- Characters produced by the optional-count group. -/
theorem optCount_fst_chars (z : L) : ∀ x ∈ (optCount z).1, x = ',' ∨ x.isDigit = true := by
  unfold optCount
  split
  · split
    · intro x hx
      rcases List.mem_cons.mp hx with rfl | hx
      · exact Or.inl rfl
      · simp only [spanDigits] at hx
        exact Or.inr (List.mem_takeWhile_imp hx)
    · simp
  · simp

/-- Characters produced by digit masking. -/
theorem maskDigits_chars (w : L) : ∀ x ∈ maskDigits w, x = 'X' := by
  intro x hx
  simp only [maskDigits, List.mem_map] at hx
  obtain ⟨-, -, h⟩ := hx
  exact h.symm

/-- Digit masking never produces a newline. -/
theorem maskDigits_no_nl (w : L) : '\n' ∉ maskDigits w := by
  intro hx
  have := maskDigits_chars w _ hx
  cases this

/-- The optional-count group never produces a newline. -/
theorem optCount_fst_no_nl (z : L) : '\n' ∉ (optCount z).1 := by
  intro hx
  rcases optCount_fst_chars z _ hx with h | h
  · cases h
  · simp at h

/-- A successful two-file hunk match never contains a newline. -/
theorem parseCore2_some_no_nl (x m : L) (h : parseCore2 x = some m) : '\n' ∉ m := by
  unfold parseCore2 at h
  split at h
  · split at h
    · cases h
    · split at h
      · split at h
        · cases h
        · split at h
          · injection h with h'
            subst h'
            simp +decide [List.mem_append, maskDigits_no_nl, optCount_fst_no_nl]
          · cases h
      · cases h
  · cases h

/-- A successful combined hunk match never contains a newline. -/
theorem parseCore3_some_no_nl (x m : L) (h : parseCore3 x = some m) : '\n' ∉ m := by
  unfold parseCore3 at h
  split at h
  · split at h
    · cases h
    · split at h
      · split at h
        · cases h
        · split at h
          · split at h
            · cases h
            · split at h
              · injection h with h'
                subst h'
                simp +decide [List.mem_append, maskDigits_no_nl, optCount_fst_no_nl]
              · cases h
          · cases h
      · cases h
  · cases h

/-- The remainder kept aside by the two-file split is made of characters of
the original trimmed line. -/
theorem lineToProcess2_snd_subset (t : L) : ∀ x ∈ (lineToProcess2 t).2, x ∈ t := by
  unfold lineToProcess2 splitn3
  simp only [lit_dd]
  cases hf1 : findSplit (['@', '@'] : L) t with
  | none => simp [hf1]
  | some p =>
    obtain ⟨a, r1⟩ := p
    have hd1 := findSplit_some _ _ _ _ hf1
    cases hf2 : findSplit (['@', '@'] : L) r1 with
    | none => simp [hf1, hf2]
    | some q =>
      obtain ⟨b, r2⟩ := q
      have hd2 := findSplit_some _ _ _ _ hf2
      intro x hx
      simp only [hf1, hf2] at hx
      subst hd2
      subst hd1
      simp only [List.mem_append] at hx ⊢
      tauto

/-- The remainder kept aside by the combined split is made of characters of
the original trimmed line. -/
theorem lineToProcess3_snd_subset (t : L) : ∀ x ∈ (lineToProcess3 t).2, x ∈ t := by
  unfold lineToProcess3 splitn3
  simp only [lit_ddd]
  cases hf1 : findSplit (['@', '@', '@'] : L) t with
  | none => simp [hf1]
  | some p =>
    obtain ⟨a, r1⟩ := p
    have hd1 := findSplit_some _ _ _ _ hf1
    cases hf2 : findSplit (['@', '@', '@'] : L) r1 with
    | none => simp [hf1, hf2]
    | some q =>
      obtain ⟨b, r2⟩ := q
      have hd2 := findSplit_some _ _ _ _ hf2
      intro x hx
      simp only [hf1, hf2] at hx
      subst hd2
      subst hd1
      simp only [List.mem_append] at hx ⊢
      tauto

/-- C10.  For a line whose trimmed content matches one of the masking
grammars, the emitted line ends in exactly one `\n` whatever the original
terminator was: appending no terminator, `\n`, or `\r\n` to the matched
content yields the same output, which ends in `\n` and contains exactly one
`\n` (the content is trimmed and a single `\n` is appended). -/
theorem c10_newline : ∀ (core term : L),
    (term = [] ∨ term = ['\n'] ∨ term = ['\r', '\n']) →
    trimEndL core = core →
    '\n' ∉ core →
    (((lit "@@ ").isPrefixOf core = true ∧ parseCore2 (lineToProcess2 core).1 ≠ none) ∨
     ((lit "@@@ ").isPrefixOf core = true ∧ parseCore3 (lineToProcess3 core).1 ≠ none)) →
    emitLine true (core ++ term) = emitLine true core ∧
    (emitLine true core).getLast? = some '\n' ∧
    (emitLine true core).count '\n' = 1 := by
  intro core term hterm htrim hnl hmatch
  have htrim2 : trimEndL (core ++ term) = core := by
    rcases hterm with rfl | rfl | rfl
    · simpa using htrim
    · rw [trimEndL_append_ws core ['\n'] (by decide)]
      exact htrim
    · rw [trimEndL_append_ws core ['\r', '\n'] (by decide)]
      exact htrim
  rcases hmatch with ⟨hp, hne⟩ | ⟨hp, hne⟩
  · have e1 : emitLine true (core ++ term) = mask2Emit core := by
      simp only [emitLine, if_true]
      rw [htrim2, if_pos hp]
    have e2 : emitLine true core = mask2Emit core := by
      simp only [emitLine, if_true]
      rw [htrim, if_pos hp]
    obtain ⟨m, hm⟩ := Option.ne_none_iff_exists'.mp hne
    have e3 : mask2Emit core = m ++ (lineToProcess2 core).2 ++ ['\n'] := by
      simp [mask2Emit, hm]
    have hmn : '\n' ∉ m := parseCore2_some_no_nl _ _ hm
    have hrn : '\n' ∉ (lineToProcess2 core).2 :=
      fun hx => hnl (lineToProcess2_snd_subset core _ hx)
    refine ⟨e1.trans e2.symm, ?_, ?_⟩
    · rw [e2, e3, List.getLast?_concat]
    · rw [e2, e3]
      simp [List.count_append, List.count_eq_zero.mpr hmn, List.count_eq_zero.mpr hrn]
  · have hnot2 : ¬ ((lit "@@ ").isPrefixOf core = true) := by
      rcases List.isPrefixOf_iff_prefix.mp hp with ⟨t0, ht0⟩
      rw [← ht0]
      simp [List.isPrefixOf]
    have e1 : emitLine true (core ++ term) = mask3Emit core := by
      simp only [emitLine, if_true]
      rw [htrim2, if_neg hnot2, if_pos hp]
    have e2 : emitLine true core = mask3Emit core := by
      simp only [emitLine, if_true]
      rw [htrim, if_neg hnot2, if_pos hp]
    obtain ⟨m, hm⟩ := Option.ne_none_iff_exists'.mp hne
    have e3 : mask3Emit core = m ++ (lineToProcess3 core).2 ++ ['\n'] := by
      simp [mask3Emit, hm]
    have hmn : '\n' ∉ m := parseCore3_some_no_nl _ _ hm
    have hrn : '\n' ∉ (lineToProcess3 core).2 :=
      fun hx => hnl (lineToProcess3_snd_subset core _ hx)
    refine ⟨e1.trans e2.symm, ?_, ?_⟩
    · rw [e2, e3, List.getLast?_concat]
    · rw [e2, e3]
      simp [List.count_append, List.count_eq_zero.mpr hmn, List.count_eq_zero.mpr hrn]

/-- C10, witness. -/
theorem c10_newline_witness :
    (trimEndL (lit "@@ -3 +4 @@") = lit "@@ -3 +4 @@" ∧
     '\n' ∉ lit "@@ -3 +4 @@" ∧
     (lit "@@ ").isPrefixOf (lit "@@ -3 +4 @@") = true ∧
     parseCore2 (lineToProcess2 (lit "@@ -3 +4 @@")).1 ≠ none) ∧
    (emitLine true (lit "@@ -3 +4 @@" ++ ['\r', '\n']) = emitLine true (lit "@@ -3 +4 @@") ∧
     (emitLine true (lit "@@ -3 +4 @@")).getLast? = some '\n' ∧
     (emitLine true (lit "@@ -3 +4 @@")).count '\n' = 1) := by
  constructor
  · exact ⟨by decide, by decide, by decide, by decide⟩
  · exact c10_newline _ _ (Or.inr (Or.inr rfl)) (by decide) (by decide)
      (Or.inl ⟨by decide, by decide⟩)

/-- Running the loop over a concatenation processes the pieces in order,
propagating a fatal error. -/
theorem runLines_append (xs : List L) : ∀ (st : St) (ys : List L),
    runLines st (xs ++ ys)
      = match runLines st xs with
        | .ok st1 => runLines st1 ys
        | .error e => .error e := by
  induction xs with
  | nil => intro st ys; rfl
  | cons l ls ih =>
    intro st ys
    simp only [List.cons_append, runLines]
    cases step st l with
    | ok st1 => exact ih st1 ys
    | error e => rfl

/-- An unexpected line in a header state makes `step` fail fatally, leaving
the state untouched. -/
theorem step_bad (st : St) (bad : L) (h : badFor st.header_state bad) :
    step st bad = .error (fatalOf st.header_state, st) := by
  cases hs : st.header_state with
  | Diff => rw [hs] at h; cases h
  | FromOrIndex =>
    rw [hs] at h
    obtain ⟨h1, h2⟩ := h
    simp only [step, hs, h1, h2]
    rfl
  | From =>
    rw [hs] at h
    have h' : isFromL bad = false := h
    simp only [step, hs, h']
    rfl
  | To =>
    rw [hs] at h
    have h' : isToL bad = false := h
    simp only [step, hs, h']
    rfl
  | Body => rw [hs] at h; cases h

/-- C3.  If the classifier reaches state `FromOrIndex`, `From` or `To` after
a prefix of the input and the next line lacks the prefix that state expects,
the whole run aborts with the corresponding fatal format error: the error
carries the state reached after the prefix unchanged — the records already
emitted (`st.emitted`) remain, and no line after the offending one is
processed, so no further record is emitted. -/
theorem c3_fatal_abort : ∀ (pre rest : List L) (bad : L) (st : St),
    runLines initSt pre = .ok st →
    badFor st.header_state bad →
    runMain (pre ++ bad :: rest) = .error (fatalOf st.header_state, st) := by
  intro pre rest bad st hrun hbad
  have h1 : runLines initSt (pre ++ bad :: rest)
      = .error (fatalOf st.header_state, st) := by
    rw [runLines_append, hrun]
    simp only [runLines, step_bad st bad hbad]
  simp only [runMain, h1]

/-- C3, witness: a `--- ` line immediately followed by another `diff --`
line (the spec's fatal-format example). -/
theorem c3_fatal_abort_witness :
    (runLines initSt demoFatalPre = .ok demoFatalSt ∧
     badFor demoFatalSt.header_state (lit "diff --git c/g d/g\n")) ∧
    runMain (demoFatalPre ++ lit "diff --git c/g d/g\n" :: [lit "+++ b/f\n"])
      = .error (fatalOf demoFatalSt.header_state, demoFatalSt) := by
  constructor
  · constructor
    · rfl
    · exact (by decide : isToL (lit "diff --git c/g d/g\n") = false)
  · exact c3_fatal_abort demoFatalPre [lit "+++ b/f\n"] (lit "diff --git c/g d/g\n")
      demoFatalSt rfl (by decide : isToL (lit "diff --git c/g d/g\n") = false)

theorem lit_diff_cons : lit "diff --" = 'd' :: lit "iff --" := rfl

theorem lit_index_cons : lit "index " = 'i' :: lit "ndex " := rfl

theorem lit_from_cons : lit "--- " = '-' :: lit "-- " := rfl

theorem lit_to_cons : lit "+++ " = '+' :: lit "++ " := rfl

theorem lit_binary_cons : lit "Binary files " = 'B' :: lit "inary files " := rfl

/-- A list prefix fails as soon as the heads differ. -/
theorem isPrefixOf_cons_head_ne (a b : Char) (as bs : L) (h : a ≠ b) :
    ((a :: as).isPrefixOf (b :: bs)) = false := by
  have hab : (a == b) = false := by simpa using h
  simp [List.isPrefixOf, hab]

/-- Two header prefixes with different head characters exclude each other. -/
theorem prefix_excl (a b : Char) (as bs l : L) (hne : b ≠ a)
    (h : ((a :: as).isPrefixOf l) = true) : ((b :: bs).isPrefixOf l) = false := by
  obtain ⟨t, ht⟩ := List.isPrefixOf_iff_prefix.mp h
  rw [← ht, List.cons_append]
  exact isPrefixOf_cons_head_ne b a _ _ hne

/-- An `index ` line is not a `diff --` line. -/
theorem not_diff_of_index (l : L) (h : isIndexL l = true) : isDiffL l = false := by
  unfold isIndexL at h
  unfold isDiffL
  rw [lit_index_cons] at h
  rw [lit_diff_cons]
  exact prefix_excl 'i' 'd' _ _ l (by decide) h

/-- An `index ` line is not a binary marker. -/
theorem not_marker_of_index (l : L) (h : isIndexL l = true) : isMarkerL l = false := by
  unfold isIndexL at h
  unfold isMarkerL
  rw [lit_index_cons] at h
  rw [lit_binary_cons]
  exact prefix_excl 'i' 'B' _ _ l (by decide) h

/-- A `--- ` line is not a `diff --` line. -/
theorem not_diff_of_from (l : L) (h : isFromL l = true) : isDiffL l = false := by
  unfold isFromL at h
  unfold isDiffL
  rw [lit_from_cons] at h
  rw [lit_diff_cons]
  exact prefix_excl '-' 'd' _ _ l (by decide) h

/-- A `--- ` line is not a binary marker. -/
theorem not_marker_of_from (l : L) (h : isFromL l = true) : isMarkerL l = false := by
  unfold isFromL at h
  unfold isMarkerL
  rw [lit_from_cons] at h
  rw [lit_binary_cons]
  exact prefix_excl '-' 'B' _ _ l (by decide) h

/-- A `+++ ` line is not a `diff --` line. -/
theorem not_diff_of_to (l : L) (h : isToL l = true) : isDiffL l = false := by
  unfold isToL at h
  unfold isDiffL
  rw [lit_to_cons] at h
  rw [lit_diff_cons]
  exact prefix_excl '+' 'd' _ _ l (by decide) h

/-- A `+++ ` line is not a binary marker. -/
theorem not_marker_of_to (l : L) (h : isToL l = true) : isMarkerL l = false := by
  unfold isToL at h
  unfold isMarkerL
  rw [lit_to_cons] at h
  rw [lit_binary_cons]
  exact prefix_excl '+' 'B' _ _ l (by decide) h

/-- A `diff --` line is not a binary marker. -/
theorem not_marker_of_diff (l : L) (h : isDiffL l = true) : isMarkerL l = false := by
  unfold isDiffL at h
  unfold isMarkerL
  rw [lit_diff_cons] at h
  rw [lit_binary_cons]
  exact prefix_excl 'd' 'B' _ _ l (by decide) h

/-- A block already emitted stays a block when more input is consumed. -/
theorem emittedBlock_mono (P Q : List L) (r : DiffRec) (h : EmittedBlock P r) :
    EmittedBlock (P ++ Q) r := by
  obtain ⟨pre, d2, post, hP, hbs, hd2⟩ := h
  refine ⟨pre, d2, post ++ Q, ?_, hbs, hd2⟩
  rw [hP]
  simp [List.append_assoc]

/-- Consuming one more line after a `diff --` line has been seen extends the
suffix kept by `dropWhile`. -/
theorem dropWhile_snoc_of_exists (P : List L) (l : L)
    (h : ∃ x ∈ P, isDiffL x = true) :
    (P ++ [l]).dropWhile (fun x => !(isDiffL x))
      = P.dropWhile (fun x => !(isDiffL x)) ++ [l] := by
  rw [List.dropWhile_append]
  have hne : (P.dropWhile (fun x => !(isDiffL x))) ≠ [] := by
    intro hnil
    obtain ⟨x, hx, hdx⟩ := h
    have := (List.dropWhile_eq_nil_iff).mp hnil x hx
    simp [hdx] at this
  rw [if_neg (by simpa using hne)]

/-- Before any `diff --` line, `dropWhile` consumes everything. -/
theorem dropWhile_snoc_of_all (P : List L) (l : L) (h : ∀ x ∈ P, isDiffL x = false) :
    (P ++ [l]).dropWhile (fun x => !(isDiffL x))
      = [l].dropWhile (fun x => !(isDiffL x)) := by
  rw [List.dropWhile_append]
  rw [if_pos]
  simp only [List.isEmpty_eq_true]
  exact List.dropWhile_eq_nil_iff.mpr (fun x hx => by simp [h x hx])

/-- The invariant holds initially. -/
theorem loopInv_init : LoopInv [] initSt := by
  refine ⟨?_, ?_, ?_, ?_, ?_, ?_⟩
  · intro _
    exact ⟨rfl, rfl, rfl, rfl, rfl, by simp⟩
  · intro h
    exact absurd rfl h
  · intro r hr
    simp [initSt] at hr
  · rfl
  · intro _ x hx
    simp [initSt] at hx
  · intro r hr
    simp [initSt] at hr

/-- Extending the open record with a non-`diff`, non-marker line (the
`index `/`--- `/`+++ ` header steps and ordinary body lines) preserves the
loop invariant. -/
theorem loopInv_extend (P : List L) (st : St) (l : L) (st' : St)
    (hs : st.header_state ≠ .Diff)
    (hi : LoopInv P st)
    (hnd : isDiffL l = false) (hnm : isMarkerL l = false)
    (hcur' : st'.current_file_lines = st.current_file_lines ++ [l])
    (hemit' : st'.emitted = st.emitted)
    (hbin' : st'.binary_file_lines = st.binary_file_lines)
    (hisb' : st'.is_binary = st.is_binary)
    (hhs' : st'.header_state ≠ .Diff) :
    LoopInv (P ++ [l]) st' := by
  obtain ⟨hA, hB, hC, hD, hE, hF⟩ := hi
  obtain ⟨pre, d, tl, hP, hcur, hdd, htl⟩ := hB hs
  refine ⟨?_, ?_, ?_, ?_, ?_, ?_⟩
  · intro h
    exact absurd h hhs'
  · intro _
    refine ⟨pre, d, tl ++ [l], ?_, ?_, hdd, ?_⟩
    · rw [hP]
      simp [List.append_assoc]
    · rw [hcur', hcur]
      simp
    · intro x hx
      rcases List.mem_append.mp hx with hx | hx
      · exact htl x hx
      · rw [List.mem_singleton.mp hx]
        exact hnd
  · intro r hr
    rw [hemit'] at hr
    exact emittedBlock_mono P [l] r (hC r hr)
  · rw [hbin', hD, dropWhile_snoc_of_exists P l ⟨d, by rw [hP]; simp, hdd⟩,
      List.filter_append]
    simp [hnm]
  · intro hb x hx
    rw [hcur'] at hx
    rcases List.mem_append.mp hx with hx | hx
    · exact hE (hisb' ▸ hb) x hx
    · rw [List.mem_singleton.mp hx]
      exact hnm
  · intro r hr
    rw [hemit'] at hr
    exact hF r hr

/-- One classifier step preserves the loop invariant. -/
theorem step_inv (P : List L) (st st' : St) (l : L)
    (h : step st l = .ok st') (hi : LoopInv P st) : LoopInv (P ++ [l]) st' := by
  obtain ⟨hA, hB, hC, hD, hE, hF⟩ := hi
  cases hs : st.header_state with
  | Diff =>
    obtain ⟨hcur, hemit, hbin, hisb, hfp, hnod⟩ := hA hs
    simp only [step, hs] at h
    by_cases hd : isDiffL l = true
    · rw [if_pos hd] at h
      injection h with h'
      subst h'
      have hflush : flushRec st = [] := by
        unfold flushRec
        rw [hfp, hemit]
      refine ⟨?_, ?_, ?_, ?_, ?_, ?_⟩
      · intro hcontra
        simp [openNew] at hcontra
      · intro _
        exact ⟨P, l, [], by simp, by simp [openNew], hd, by simp⟩
      · intro r hr
        simp only [openNew, hflush] at hr
        simp at hr
      · show (openNew st l).binary_file_lines = _
        simp only [openNew]
        rw [hbin, dropWhile_snoc_of_all P l hnod,
          List.dropWhile_cons_of_neg (by simp [hd])]
        simp [not_marker_of_diff l hd]
      · intro _ x hx
        simp only [openNew] at hx
        rw [List.mem_singleton.mp hx]
        exact not_marker_of_diff l hd
      · intro r hr
        simp only [openNew, hflush] at hr
        simp at hr
    · rw [if_neg hd] at h
      injection h with h'
      subst h'
      refine ⟨?_, ?_, ?_, ?_, ?_, ?_⟩
      · intro _
        refine ⟨hcur, hemit, hbin, hisb, hfp, ?_⟩
        intro x hx
        rcases List.mem_append.mp hx with hx | hx
        · exact hnod x hx
        · rw [List.mem_singleton.mp hx]
          simpa using hd
      · intro hcontra
        exact absurd hs hcontra
      · intro r hr
        rw [hemit] at hr
        simp at hr
      · rw [hbin]
        have hall : ((P ++ [l]).dropWhile (fun x => !(isDiffL x))) = [] := by
          refine List.dropWhile_eq_nil_iff.mpr ?_
          intro x hx
          rcases List.mem_append.mp hx with hx | hx
          · simp [hnod x hx]
          · rw [List.mem_singleton.mp hx]
            simpa using hd
        rw [hall]
        rfl
      · exact hE
      · exact hF
  | FromOrIndex =>
    simp only [step, hs] at h
    by_cases hidx : isIndexL l = true
    · rw [if_pos hidx] at h
      injection h with h'
      subst h'
      exact loopInv_extend P st l _ (by rw [hs]; simp) ⟨hA, hB, hC, hD, hE, hF⟩
        (not_diff_of_index l hidx) (not_marker_of_index l hidx) rfl rfl rfl rfl (by simp)
    · rw [if_neg hidx] at h
      by_cases hfrom : isFromL l = true
      · rw [if_pos hfrom] at h
        injection h with h'
        subst h'
        exact loopInv_extend P st l _ (by rw [hs]; simp) ⟨hA, hB, hC, hD, hE, hF⟩
          (not_diff_of_from l hfrom) (not_marker_of_from l hfrom) rfl rfl rfl rfl (by simp)
      · rw [if_neg hfrom] at h
        cases h
  | From =>
    simp only [step, hs] at h
    by_cases hfrom : isFromL l = true
    · rw [if_pos hfrom] at h
      injection h with h'
      subst h'
      exact loopInv_extend P st l _ (by rw [hs]; simp) ⟨hA, hB, hC, hD, hE, hF⟩
        (not_diff_of_from l hfrom) (not_marker_of_from l hfrom) rfl rfl rfl rfl (by simp)
    · rw [if_neg hfrom] at h
      cases h
  | To =>
    simp only [step, hs] at h
    by_cases hto : isToL l = true
    · rw [if_pos hto] at h
      injection h with h'
      subst h'
      exact loopInv_extend P st l _ (by rw [hs]; simp) ⟨hA, hB, hC, hD, hE, hF⟩
        (not_diff_of_to l hto) (not_marker_of_to l hto) rfl rfl rfl rfl (by simp)
    · rw [if_neg hto] at h
      cases h
  | Body =>
    have hsne : st.header_state ≠ .Diff := by rw [hs]; simp
    simp only [step, hs] at h
    by_cases hd : isDiffL l = true
    · rw [if_pos hd] at h
      injection h with h'
      subst h'
      obtain ⟨pre, d, tl, hP, hcur, hdd, htl⟩ := hB hsne
      refine ⟨?_, ?_, ?_, ?_, ?_, ?_⟩
      · intro hcontra
        simp [openNew] at hcontra
      · intro _
        exact ⟨P, l, [], by simp, by simp [openNew], hd, by simp⟩
      · intro r hr
        simp only [openNew] at hr
        unfold flushRec at hr
        cases hfp : st.full_path with
        | none =>
          simp only [hfp] at hr
          exact emittedBlock_mono P [l] r (hC r hr)
        | some p =>
          simp only [hfp] at hr
          by_cases hcond : st.current_file_lines ≠ [] ∧ st.is_binary = false
          · rw [if_pos hcond] at hr
            rcases List.mem_append.mp hr with hr | hr
            · exact emittedBlock_mono P [l] r (hC r hr)
            · rw [List.mem_singleton.mp hr]
              refine ⟨pre, l, [], ?_, ⟨d, tl, by simpa using hcur, hdd, htl⟩, hd⟩
              rw [hP, hcur]
          · rw [if_neg hcond] at hr
            exact emittedBlock_mono P [l] r (hC r hr)
      · show (openNew st l).binary_file_lines = _
        simp only [openNew]
        rw [hD, dropWhile_snoc_of_exists P l ⟨d, by rw [hP]; simp, hdd⟩,
          List.filter_append]
        simp [not_marker_of_diff l hd]
      · intro _ x hx
        simp only [openNew] at hx
        rw [List.mem_singleton.mp hx]
        exact not_marker_of_diff l hd
      · intro r hr
        simp only [openNew] at hr
        unfold flushRec at hr
        cases hfp : st.full_path with
        | none =>
          simp only [hfp] at hr
          exact hF r hr
        | some p =>
          simp only [hfp] at hr
          by_cases hcond : st.current_file_lines ≠ [] ∧ st.is_binary = false
          · rw [if_pos hcond] at hr
            rcases List.mem_append.mp hr with hr | hr
            · exact hF r hr
            · rw [List.mem_singleton.mp hr]
              intro x hx
              exact hE hcond.2 x (by simpa using hx)
          · rw [if_neg hcond] at hr
            exact hF r hr
    · rw [if_neg hd] at h
      by_cases hm : isMarkerL l = true
      · rw [if_pos hm] at h
        injection h with h'
        subst h'
        obtain ⟨pre, d, tl, hP, hcur, hdd, htl⟩ := hB hsne
        refine ⟨?_, ?_, ?_, ?_, ?_, ?_⟩
        · intro hcontra
          exact absurd hcontra (by simp [hs])
        · intro _
          refine ⟨pre, d, tl ++ [l], ?_, ?_, hdd, ?_⟩
          · rw [hP]
            simp [List.append_assoc]
          · rw [hcur]
            simp
          · intro x hx
            rcases List.mem_append.mp hx with hx | hx
            · exact htl x hx
            · rw [List.mem_singleton.mp hx]
              simpa using hd
        · intro r hr
          exact emittedBlock_mono P [l] r (hC r hr)
        · show st.binary_file_lines ++ [trimEndL l] = _
          rw [hD, dropWhile_snoc_of_exists P l ⟨d, by rw [hP]; simp, hdd⟩,
            List.filter_append]
          simp [hm]
        · intro hb
          simp at hb
        · intro r hr
          exact hF r hr
      · rw [if_neg hm] at h
        injection h with h'
        subst h'
        exact loopInv_extend P st l _ hsne ⟨hA, hB, hC, hD, hE, hF⟩
          (by simpa using hd) (by simpa using hm) rfl rfl rfl rfl (by simp [hs])

/-- The loop invariant holds after any successful run. -/
theorem runLines_inv : ∀ (ls : List L) (st st' : St) (P : List L),
    LoopInv P st → runLines st ls = .ok st' → LoopInv (P ++ ls) st' := by
  intro ls
  induction ls with
  | nil =>
    intro st st' P hi h
    simp only [runLines] at h
    injection h with h'
    subst h'
    simpa using hi
  | cons l ls ih =>
    intro st st' P hi h
    simp only [runLines] at h
    cases hst : step st l with
    | ok st1 =>
      rw [hst] at h
      have h2 := ih st1 st' (P ++ [l]) (step_inv P st st1 l hst hi) h
      simpa [List.append_assoc] using h2
    | error e =>
      rw [hst] at h
      cases h

/-- Records flushed at end of stream are blocks of the input and contain no
binary marker. -/
theorem flushRec_records (input : List L) (st : St) (hi : LoopInv input st) :
    ∀ r ∈ flushRec st,
      IsBlockOf input r.lines ∧ ∀ x ∈ r.lines, isMarkerL x = false := by
  obtain ⟨hA, hB, hC, hD, hE, hF⟩ := hi
  intro r hr
  unfold flushRec at hr
  have hmem : r ∈ st.emitted ∨
      (∃ p, st.full_path = some p ∧ st.current_file_lines ≠ [] ∧ st.is_binary = false ∧
        r = ⟨st.current_file_lines, p⟩) := by
    cases hfp : st.full_path with
    | none =>
      simp only [hfp] at hr
      exact Or.inl hr
    | some p =>
      simp only [hfp] at hr
      by_cases hcond : st.current_file_lines ≠ [] ∧ st.is_binary = false
      · rw [if_pos hcond] at hr
        rcases List.mem_append.mp hr with hr | hr
        · exact Or.inl hr
        · exact Or.inr ⟨p, rfl, hcond.1, hcond.2, List.mem_singleton.mp hr⟩
      · rw [if_neg hcond] at hr
        exact Or.inl hr
  rcases hmem with hr' | ⟨p, hfp, hne, hisb, hreq⟩
  · obtain ⟨pre, d2, post, hP, hbs, hd2⟩ := hC r hr'
    exact ⟨⟨pre, d2 :: post, hP, hbs, Or.inr ⟨d2, post, rfl, hd2⟩⟩, hF r hr'⟩
  · have hsne : st.header_state ≠ .Diff := by
      intro hdiff
      have := (hA hdiff).2.2.2.2.1
      rw [hfp] at this
      cases this
    obtain ⟨pre, d, tl, hP, hcur, hdd, htl⟩ := hB hsne
    subst hreq
    constructor
    · refine ⟨pre, [], ?_, ⟨d, tl, by simpa using hcur, hdd, htl⟩, Or.inl rfl⟩
      simp only [hcur]
      rw [hP]
      simp
    · intro x hx
      exact hE hisb x (by simpa using hx)

/-- With masking and header-skipping both disabled every line is written
verbatim. -/
theorem recordOutputAux_verbatim (lines : List L) : ∀ hp : Bool,
    recordOutputAux false false hp lines = lines.flatten := by
  induction lines with
  | nil => intro hp; rfl
  | cons l ls ih =>
    intro hp
    simp [recordOutputAux, emitLine, ih]

/-- C4.  For every well-formed input (the run succeeds) and every emitted
record, the record's lines are exactly one file's diff block of the input
(contiguous, started by its `diff --` line, ended by the next `diff --` line
or the end of input), and with masking and header-skipping disabled the
bytes written for the record are exactly the concatenation of those lines —
the original bytes of the block. -/
theorem c4_roundtrip : ∀ (input : List L) (res : RunResult),
    runMain input = .ok res → ∀ r ∈ res.records,
    IsBlockOf input r.lines ∧ recordOutput false false r.lines = r.lines.flatten := by
  intro input res hrun r hr
  unfold runMain at hrun
  cases hrl : runLines initSt input with
  | error e =>
    rw [hrl] at hrun
    cases hrun
  | ok st =>
    rw [hrl] at hrun
    injection hrun with h'
    subst h'
    have hi : LoopInv input st := by
      have := runLines_inv input initSt st [] loopInv_init hrl
      simpa using this
    have hblk := flushRec_records input st hi r hr
    exact ⟨hblk.1, recordOutputAux_verbatim r.lines false⟩

/-- C4, witness. -/
theorem c4_roundtrip_witness :
    runMain demoIn = .ok demoRes ∧
    (IsBlockOf demoIn demoRec.lines ∧
     recordOutput false false demoRec.lines = demoRec.lines.flatten) := by
  refine ⟨rfl, c4_roundtrip demoIn demoRes rfl demoRec ?_⟩
  simp [demoRes]

/-- C7, amended.  In every successful run: a record containing a binary
marker line is never handed to the per-file writer (emitted records contain
no marker line at all); the binary aggregate consists of exactly the marker
lines encountered after the first `diff --` line, one aggregate line per
marker line (a record with several markers contributes several lines), in
stream order and trimmed of trailing whitespace; and the aggregate artifact
is produced precisely when at least one marker was observed. -/
theorem c7_binary_amended : ∀ (input : List L) (res : RunResult),
    runMain input = .ok res →
    (∀ r ∈ res.records, ∀ x ∈ r.lines, isMarkerL x = false) ∧
    res.binary_file_lines
      = ((input.dropWhile (fun x => !(isDiffL x))).filter isMarkerL).map trimEndL ∧
    (binaryAggregate res = none ↔
      (input.dropWhile (fun x => !(isDiffL x))).filter isMarkerL = []) := by
  intro input res hrun
  unfold runMain at hrun
  cases hrl : runLines initSt input with
  | error e =>
    rw [hrl] at hrun
    cases hrun
  | ok st =>
    rw [hrl] at hrun
    injection hrun with h'
    subst h'
    have hi : LoopInv input st := by
      have := runLines_inv input initSt st [] loopInv_init hrl
      simpa using this
    refine ⟨?_, ?_, ?_⟩
    · intro r hr
      exact (flushRec_records input st hi r hr).2
    · exact hi.2.2.2.1
    · have hD := hi.2.2.2.1
      simp only [binaryAggregate]
      constructor
      · intro hnone
        by_cases hbin : st.binary_file_lines = []
        · rw [hbin] at hD
          exact (List.map_eq_nil_iff.mp hD.symm)
        · rw [if_neg (by simpa using hbin)] at hnone
          cases hnone
      · intro hfil
        rw [if_pos (by simp [hD, hfil])]

/-- C7, witness. -/
theorem c7_binary_witness :
    runMain demoBin = .ok demoBinRes ∧
    ((∀ r ∈ demoBinRes.records, ∀ x ∈ r.lines, isMarkerL x = false) ∧
     demoBinRes.binary_file_lines
       = ((demoBin.dropWhile (fun x => !(isDiffL x))).filter isMarkerL).map trimEndL ∧
     (binaryAggregate demoBinRes = none ↔
       (demoBin.dropWhile (fun x => !(isDiffL x))).filter isMarkerL = [])) :=
  ⟨rfl, c7_binary_amended demoBin demoBinRes rfl⟩
